import Mathlib

/-!
Verification of the Hakken agent core and its terminal-UI bridge.

The development shallowly embeds the data model and operations of the
Hakken repository: the conversation data model and the tool registry
(`run_tool`, the caller-side catch), the stream processor
(`process_stream` / `handle_tool_delta` accumulation), the conversation
history compression (`compress_context` and its two phases), the
circuit-breaker / recursion-depth control of the loop controller, and the
TypeScript bridge of `terminal_ui` (`useBridge.ts`): frame extraction from
the byte stream, tool-result rendering and `parseToolMessage`, and the
`stopAgent` dedup guard.

Functions whose bodies are present in the repository are translated
directly; functions whose bodies the repository only documents are marked
`Modelled from the spec:` in their doc comment.
-/

namespace Hakken

/-! ## Data model -/

/-- Message roles, from the data model (`role ∈ {system, user, assistant, tool}`). -/
inductive Role where
  | system
  | user
  | assistant
  | tool
deriving DecidableEq

/-- A sealed tool-call request: `id`, `name`, accumulated `argumentsText`. -/
structure ToolCallRequest where
  id : String
  name : String
  argumentsText : String
deriving DecidableEq

/-- One conversation message: role, text content, tool calls (assistant only),
and `toolCallId` (tool-role only). -/
structure Message where
  role : Role
  content : String
  toolCalls : List ToolCallRequest := []
  toolCallId : Option String := none
deriving DecidableEq

/-! ## Stream processor (C1, C6)

From the blog source, `StreamProcessor.process_stream` walks the chunks of
a streamed response: text content is appended to `content_buffer` (and
surfaced immediately), tool-call fragments are handed to
`_accumulate_tool_calls`.  Each fragment carries an `index`, optionally a
function `name`, and optionally an `arguments` text piece, as in the
chunk examples of the source. -/

/-- One tool-call fragment of a stream delta, as in the source's chunk
examples: `{"index": 0, "function": {"name": ...}}` and
`{"index": 0, "function": {"arguments": ...}}`. -/
structure ToolCallDelta where
  index : Nat
  name : Option String := none
  argumentsText : Option String := none
deriving DecidableEq

/-- One stream delta: optional text content and a (possibly empty) list of
tool-call fragments, mirroring the two independent branches of
`process_stream`. -/
structure StreamDelta where
  content : Option String := none
  tool_calls : List ToolCallDelta := []
deriving DecidableEq

/-- A tool call being reassembled: the captured name (if any fragment carried
one yet) and the accumulated arguments text. -/
structure ToolCallBuild where
  name : Option String
  argumentsText : String
deriving DecidableEq

/-- Modelled from the spec: the body of `_accumulate_tool_calls` is not in the
repository (only its call site in `process_stream` and the single-call
`handle_tool_delta` are).  Per the spec, the first fragment for an index
creates the call (capturing the name if present), subsequent fragments
append to `argumentsText`; the per-field updates (overwrite name when
present, append arguments) are those of `handle_tool_delta`.  Calls are kept
in an association list keyed by fragment index, in creation order. -/
def accumulate_tool_call (calls : List (Nat × ToolCallBuild)) (d : ToolCallDelta) :
    List (Nat × ToolCallBuild) :=
  match calls with
  | [] => [(d.index, { name := d.name, argumentsText := d.argumentsText.getD "" })]
  | (i, c) :: rest =>
    if i = d.index then
      (i, { name := match d.name with | some n => some n | none => c.name,
            argumentsText := c.argumentsText ++ d.argumentsText.getD "" }) :: rest
    else (i, c) :: accumulate_tool_call rest d

/-- The per-turn stream state of `StreamProcessor`: `content_buffer` and the
tool calls under reassembly. -/
structure StreamState where
  content_buffer : String
  tool_calls : List (Nat × ToolCallBuild)
deriving DecidableEq

/-- One iteration of the `process_stream` loop: append text content to the
buffer if present, then accumulate the chunk's tool-call fragments. -/
def process_delta (st : StreamState) (d : StreamDelta) : StreamState :=
  let st1 := match d.content with
    | some s => { st with content_buffer := st.content_buffer ++ s }
    | none => st
  { st1 with tool_calls := d.tool_calls.foldl accumulate_tool_call st1.tool_calls }

/-- `StreamProcessor.process_stream` over a whole (uninterrupted) stream. -/
def process_stream (deltas : List StreamDelta) : StreamState :=
  deltas.foldl process_delta { content_buffer := "", tool_calls := [] }

/-- Look a reassembled call up by stream index. -/
def lookup_call (idx : Nat) : List (Nat × ToolCallBuild) → Option ToolCallBuild
  | [] => none
  | (i, c) :: rest => if i = idx then some c else lookup_call idx rest

/-- The arguments text a single fragment contributes to index `idx`. -/
def frag_args (idx : Nat) (d : ToolCallDelta) : Option String :=
  if d.index = idx then d.argumentsText else none

/-- Concatenation of a list of strings, in order. -/
def concat_all : List String → String
  | [] => ""
  | s :: rest => s ++ concat_all rest

/-- All argument fragments a stream carries for index `idx`, in arrival order. -/
def arg_fragments (idx : Nat) (deltas : List StreamDelta) : List String :=
  (deltas.map (fun d => d.tool_calls.filterMap (frag_args idx))).flatten

/-- Whether any fragment of the list references index `idx`. -/
def refs_idx (idx : Nat) (frags : List ToolCallDelta) : Bool :=
  frags.any (fun f => f.index == idx)

/-- The accumulated arguments at index `idx`, if a call exists there. -/
def args_at (idx : Nat) (calls : List (Nat × ToolCallBuild)) : Option String :=
  (lookup_call idx calls).map (fun c => c.argumentsText)

/-- The spec's reassembly scenario: one `list_dir` call at index 0 whose
arguments arrive as three fragments, interleaved with text deltas and
fragments for index 1. -/
def example_stream : List StreamDelta :=
  [ { content := some "I will list the files." },
    { tool_calls := [{ index := 0, name := some "list_dir",
                       argumentsText := some "\x7b\x22pa" }] },
    { tool_calls := [{ index := 1, name := some "read_file",
                       argumentsText := some "\x7b\x22p" }] },
    { content := some " Now.",
      tool_calls := [{ index := 0, argumentsText := some "th\x22:\x22.\x22" }] },
    { tool_calls := [{ index := 0, argumentsText := some "\x7d" },
                     { index := 1, argumentsText := some "ath\x22:\x22x\x22\x7d" }] } ]

/-! ## Tool registry (C7)

From the blog source: `ToolRegistry.run_tool` looks a tool up by name and
returns a not-found error value for unknown names; the executor itself may
raise.  The caller wraps execution in try/except and converts a raised
error into a `"Tool failed: ..."` failure result.  Executors are embedded
as `String → Except String String`: `Except.error` models a raised Python
exception, `Except.ok` a normal return. -/

/-- A tool result as seen by the loop: a success flag and a message/payload. -/
structure ToolResult where
  ok : Bool
  message : String
deriving DecidableEq

/-- A registry maps tool names to executors (association list, registration order). -/
def ToolRegistry := List (String × (String → Except String String))

/-- `ToolRegistry.run_tool`: unknown tool names yield a not-found error value
(a normal return, not a raise); otherwise the executor runs, and a raise
propagates (modelled by returning `Except.error`). -/
def run_tool (reg : ToolRegistry) (tool_name : String) (args : String) :
    Except String ToolResult :=
  match List.lookup tool_name reg with
  | none => Except.ok { ok := false, message := "Tool " ++ tool_name ++ " not found" }
  | some tool =>
    match tool args with
    | Except.ok v => Except.ok { ok := true, message := v }
    | Except.error e => Except.error e

/-- The caller-side boundary: `try: result = await tool.execute(**args)
except Exception as e: result = f"Tool failed: {str(e)}"`.  Composing it with
`run_tool` gives a total function into `ToolResult`. -/
def execute_tool (reg : ToolRegistry) (tool_name : String) (args : String) : ToolResult :=
  match run_tool reg tool_name args with
  | Except.ok r => r
  | Except.error e => { ok := false, message := "Tool failed: " ++ e }

/-! ## Tool execution pipeline appends (C3)

From the blog source, `_recursive_message_handling` runs
`for tool_call in response.tool_calls:` executing each call and appending
`{"role": "tool", "tool_call_id": tool_call.id, "content": ...}` to the
history.  The approval gate is modelled from the spec (4.6): a denied call
still gets exactly one tool message (the denial notice). -/

/-- Approval decision for one call (spec 4.6 step 1). -/
inductive Decision where
  | approved
  | denied
deriving DecidableEq

/-- Modelled from the spec: the content recorded for one processed call,
covering approved-and-executed, approved-and-failed and denied calls
(spec 4.6 step 4); execution failure conversion is from the caller-side
catch in the source. -/
def tool_call_content (reg : ToolRegistry) (approve : ToolCallRequest → Decision)
    (c : ToolCallRequest) : String :=
  match approve c with
  | Decision.denied => "Denied: " ++ c.name
  | Decision.approved => (execute_tool reg c.name c.argumentsText).message

/-- One iteration of the tool-call loop: append exactly one tool message for
the call, `tool_call_id` matching the request. -/
def append_tool_message (reg : ToolRegistry) (approve : ToolCallRequest → Decision)
    (history : List Message) (c : ToolCallRequest) : List Message :=
  history ++ [{ role := Role.tool, content := tool_call_content reg approve c,
                toolCallId := some c.id }]

/-- The batch loop from `_recursive_message_handling`: fold the per-call append
over the sealed tool calls of the triggering assistant message. -/
def run_tool_batch (reg : ToolRegistry) (approve : ToolCallRequest → Decision)
    (history : List Message) (calls : List ToolCallRequest) : List Message :=
  calls.foldl (append_tool_message reg approve) history

/-! ## History compression (C2, C8)

From the blog source, `compress_context` applies two phases:
`compressed = self.remove_old_tool_results(messages)` and, if
`self.estimate_tokens(compressed) > self.limit`, additionally
`compressed = self.crop_middle_messages(compressed)`.  The phase bodies are
not in the repository (`_compress_old_messages` is `pass`), so they are
modelled from the spec (4.1). -/

/-- Modelled from the spec: `estimateTokens` "approximates cost from
serialized message size (character-count-based heuristic is acceptable)";
a character-count heuristic over the message content. -/
def estimate_tokens_message (m : Message) : Nat :=
  m.content.length / 4 + 1

/-- Token estimate of a message sequence: sum of per-message estimates. -/
def estimate_tokens (ms : List Message) : Nat :=
  (ms.map estimate_tokens_message).sum

/-- The fixed placeholder noting an old tool result was dropped (spec 4.1). -/
def tool_result_placeholder : String := "[old tool result dropped]"

/-- Replace the content of the first `k` tool-role messages with the
placeholder, leaving everything else untouched. -/
def strip_go : Nat → List Message → List Message
  | _, [] => []
  | 0, ms => ms
  | k + 1, m :: rest =>
    if m.role = Role.tool then
      { m with content := tool_result_placeholder } :: strip_go k rest
    else m :: strip_go (k + 1) rest

/-- Number of tool-role messages in a sequence. -/
def count_tool (ms : List Message) : Nat :=
  ms.countP (fun m => m.role == Role.tool)

/-- Modelled from the spec: phase 1 of compression — "strip or summarize
tool-result payloads older than a retention window (keep the most recent N
tool results verbatim, replace older ones with a fixed placeholder noting
they were dropped)".  All but the last `keepN` tool messages get the
placeholder content. -/
def remove_old_tool_results (keepN : Nat) (ms : List Message) : List Message :=
  strip_go (count_tool ms - keepN) ms

/-- Index of the most recent user-role message, if any. -/
def last_user_idx : List Message → Option Nat
  | [] => none
  | m :: rest =>
    match last_user_idx rest with
    | some i => some (i + 1)
    | none => if m.role = Role.user then some 0 else none

/-- The most recent user-role message itself, if any. -/
def last_user : List Message → Option Message
  | [] => none
  | m :: rest =>
    match last_user rest with
    | some u => some u
    | none => if m.role = Role.user then some m else none

/-- Index of the first system-role message of a sequence, if any. -/
def first_system_idx : List Message → Option Nat
  | [] => none
  | m :: rest =>
    if m.role = Role.system then some 0
    else (first_system_idx rest).map (fun i => i + 1)

/-- End (exclusive) of the contiguous middle crop range `[1, e)`: bounded so
the range stays clear of the last `k` messages, of the most recent user
message, and of any system-role message after the head. -/
def crop_end (k : Nat) (ms : List Message) : Nat :=
  min (ms.length - k)
    (min ((last_user_idx ms).getD ms.length)
      (1 + ((first_system_idx (ms.drop 1)).getD ms.length)))

/-- The single synthetic summary message replacing the collapsed middle. -/
def summary_message : Message :=
  { role := Role.assistant, content := "[earlier conversation summarized]" }

/-- Modelled from the spec: phase 2 of compression — "collapse a contiguous
middle range of non-system, non-latest-user messages into a single synthetic
assistant-or-system summary message, preserving the first message and the
last k messages untouched".  The range `[1, crop_end)` is collapsed when it
holds at least two messages. -/
def crop_middle_messages (k : Nat) (ms : List Message) : List Message :=
  let e := crop_end k ms
  if e ≤ 2 then ms
  else ms.take 1 ++ [summary_message] ++ ms.drop e

/-- `compress_context` from the source: phase 1, then phase 2 only if the
estimate still exceeds the limit. -/
def compress_context (keepN k limit : Nat) (ms : List Message) : List Message :=
  let compressed := remove_old_tool_results keepN ms
  if limit < estimate_tokens compressed then crop_middle_messages k compressed
  else compressed

/-- The history store with its compression configuration. -/
structure HistoryStore where
  messages : List Message
  max_tokens : Nat
  keep_recent_tool_results : Nat
  keep_tail : Nat
deriving DecidableEq

/-- The compression trigger from `add_message` in the source:
`self.token_count > self.max_tokens * 0.8`, written over `Nat` as
`5 · estimate > 4 · max`. -/
def over_threshold (h : HistoryStore) : Bool :=
  decide (4 * h.max_tokens < 5 * estimate_tokens h.messages)

/-- `compressIfNeeded`: compress exactly when the estimate exceeds the
threshold; the phase-2 limit is the same 80% budget in integer form. -/
def compress_if_needed (h : HistoryStore) : HistoryStore :=
  if over_threshold h then
    { h with
        messages :=
          compress_context h.keep_recent_tool_results h.keep_tail
            (4 * h.max_tokens / 5) h.messages }
  else h

/-- A concrete six-message history: system head, two user turns, tool
results, used to witness the compression anchors. -/
def example_history : List Message :=
  [ { role := Role.system, content := "You are Hakken." },
    { role := Role.user, content := "list files" },
    { role := Role.assistant, content := "",
      toolCalls := [{ id := "1", name := "list_dir", argumentsText := "\x7b\x7d" }] },
    { role := Role.tool, content := "a.txt b.txt", toolCallId := some "1" },
    { role := Role.user, content := "read a.txt" },
    { role := Role.tool, content := "hello", toolCallId := some "2" } ]

/-- A concrete below-threshold history store. -/
def example_store : HistoryStore :=
  { messages := example_history, max_tokens := 1000,
    keep_recent_tool_results := 1, keep_tail := 1 }

/-! ## Tool message rendering and parsing (C9)

From the `tool_result` case of `handleMessage` in `useBridge.ts` (render)
and `parseToolMessage` in the formatting module (parse).  The parse regex is
`^(\[ok\]|\[!\]|ok|err)\s+(\w+):\s*(.*)$` with the `s` flag: the alternation
is ordered but its branches are first-chars-disjoint, and `\s`, `\w` and
`:` are pairwise disjoint character classes, so the regex behaves as the
deterministic maximal-munch parser embedded below. -/

/-- JS `\w` (ASCII): letters, digits, underscore. -/
def word_char (c : Char) : Bool := c.isAlphanum || c == '_'

/-- The character set of ECMAScript `\s`: WhiteSpace (TAB, VT, FF, SP,
NBSP, ZWNBSP and the Unicode Zs space separators) together with the
LineTerminator characters LF, CR, LS, PS. -/
def ws_chars : List Char :=
  ['\t', '\n', '\x0b', '\x0c', '\r', ' ', '\u00A0', '\u1680',
   '\u2000', '\u2001', '\u2002', '\u2003', '\u2004', '\u2005', '\u2006',
   '\u2007', '\u2008', '\u2009', '\u200A', '\u2028', '\u2029', '\u202F',
   '\u205F', '\u3000', '\uFEFF']

/-- JS `\s`: membership in the ECMAScript whitespace set. -/
def ws_char (c : Char) : Bool := decide (c ∈ ws_chars)

/-- The `tool_result` case of `handleMessage`: status `[!]` exactly when
`success` is `false`, `[ok]` otherwise; an empty name falls back to `tool`
(the JS `(data.name as string) || 'tool'`); the rendered message is
`status ++ " " ++ name ++ ": " ++ result`. -/
def render_tool_message (tool_name : String) (success : Option Bool)
    (result : String) : String :=
  let nm := if tool_name = "" then "tool" else tool_name
  let status := if success = some false then "[!]" else "[ok]"
  status ++ " " ++ nm ++ ": " ++ result

/-- The record `parseToolMessage` returns. -/
structure ParsedTool where
  status : String
  toolName : String
  result : String
deriving DecidableEq

/-- The ordered status alternation `(\[ok\]|\[!\]|ok|err)` of
`parseToolMessage` (char lists spell the four alternatives). -/
def parse_status (cs : List Char) : Option (List Char × List Char) :=
  if List.isPrefixOf ['[', 'o', 'k', ']'] cs then some (['[', 'o', 'k', ']'], cs.drop 4)
  else if List.isPrefixOf ['[', '!', ']'] cs then some (['[', '!', ']'], cs.drop 3)
  else if List.isPrefixOf ['o', 'k'] cs then some (['o', 'k'], cs.drop 2)
  else if List.isPrefixOf ['e', 'r', 'r'] cs then some (['e', 'r', 'r'], cs.drop 3)
  else none

/-- `parseToolMessage` from the source: match the status, one-or-more
whitespace, a nonempty word-character tool name, a colon, then the result
with its leading whitespace consumed by the greedy `\s*`. -/
def parse_tool_message (content : String) : Option ParsedTool :=
  match parse_status content.data with
  | none => none
  | some (st, r1) =>
    if (r1.takeWhile ws_char).isEmpty then none
    else
      let r2 := r1.dropWhile ws_char
      let nm := r2.takeWhile word_char
      if nm.isEmpty then none
      else
        match r2.dropWhile word_char with
        | c :: r4 =>
          if c = ':' then
            some { status := String.mk st, toolName := String.mk nm,
                   result := String.mk (r4.dropWhile ws_char) }
          else none
        | [] => none

/-! ## Interrupts and the stop path (C6)

The interrupt poll-per-delta protocol is in the source's interrupt-handling
sketch (`for chunk in stream: interrupt = self._poll_interrupt(); ...`);
its stop semantics (abort consumption, discard the remaining deltas, seal
with a stopped outcome, execute no tools, return to idle) are modelled from
the spec (4.3, 4.5, 4.7 step 5).  The UI record of the stop is the
`stopped` case of `handleMessage` in `useBridge.ts`. -/

/-- The loop-controller states from the source's `AgentState` enum. -/
inductive AgentState where
  | idle
  | thinking
  | executingTools
  | interrupted
deriving DecidableEq

/-- The two interrupt signal kinds (spec 4.3). -/
inductive InterruptSignal where
  | stopSignal
  | instructionSignal (text : String)
deriving DecidableEq

/-- Outcome tag of one streamed turn (spec 4.5). -/
inductive TurnOutcome where
  | completed
  | stopped
  | interruptedBy (text : String)
deriving DecidableEq

/-- Modelled from the spec: the consumption loop — before processing each
delta, poll the interrupt channel; on `StopSignal` abort consumption (the
remaining deltas are discarded) with a stopped outcome; on
`InstructionSignal` seal with an interrupted outcome; otherwise process the
delta as in `process_stream` and continue.  The poll list supplies one poll
result per delta; an exhausted poll list polls as `none`. -/
def consume_go : StreamState → List StreamDelta → List (Option InterruptSignal) →
    StreamState × TurnOutcome
  | st, [], _ => (st, TurnOutcome.completed)
  | st, d :: ds, [] => consume_go (process_delta st d) ds []
  | st, d :: ds, p :: ps =>
    match p with
    | some InterruptSignal.stopSignal => (st, TurnOutcome.stopped)
    | some (InterruptSignal.instructionSignal t) => (st, TurnOutcome.interruptedBy t)
    | none => consume_go (process_delta st d) ds ps

/-- Seal the reassembled calls into `ToolCallRequest`s (stream index as id). -/
def seal_calls (tcs : List (Nat × ToolCallBuild)) : List ToolCallRequest :=
  tcs.map (fun ic =>
    { id := toString ic.1, name := (ic.2.name).getD "", argumentsText := ic.2.argumentsText })

/-- What one driven turn produces: the sealed assistant message, the tool
calls actually handed to the execution pipeline, the events emitted to the
UI, and the controller state afterwards. -/
structure TurnResult where
  assistant : Message
  executedTools : List ToolCallRequest
  events : List String
  finalState : AgentState
deriving DecidableEq

/-- Modelled from the spec: steps 4-6 of the loop-controller algorithm
(spec 4.7).  A stopped outcome executes no tools, emits the `stopped` event
and returns to `Idle`; a completed outcome hands the sealed calls to the
pipeline; an instruction interrupt routes back to thinking. -/
def run_turn (deltas : List StreamDelta) (polls : List (Option InterruptSignal)) :
    TurnResult :=
  let r := consume_go { content_buffer := "", tool_calls := [] } deltas polls
  let amsg : Message := { role := Role.assistant, content := r.1.content_buffer,
                          toolCalls := seal_calls r.1.tool_calls }
  match r.2 with
  | TurnOutcome.stopped =>
    { assistant := amsg, executedTools := [], events := ["stopped"],
      finalState := AgentState.idle }
  | TurnOutcome.completed =>
    { assistant := amsg, executedTools := amsg.toolCalls, events := ["complete"],
      finalState := AgentState.idle }
  | TurnOutcome.interruptedBy _ =>
    { assistant := amsg, executedTools := [], events := ["interrupted"],
      finalState := AgentState.thinking }

/-- The UI bridge state: current mode and rendered messages (type, content). -/
structure UiState where
  mode : String
  uimessages : List (String × String)
deriving DecidableEq

/-- The `complete | interrupted | stopped` cases of `handleMessage` in
`useBridge.ts`: all three set the mode to `ready`; `stopped` additionally
appends the system message `[x] Agent stopped`. -/
def ui_handle (ui : UiState) (ev : String) : UiState :=
  if ev = "stopped" then
    { mode := "ready", uimessages := ui.uimessages ++ [("system", "[x] Agent stopped")] }
  else if ev = "complete" then { ui with mode := "ready" }
  else if ev = "interrupted" then { ui with mode := "ready" }
  else ui

/-! ## Loop controller and circuit breaker (C4)

From the blog source: `CircuitBreaker.should_continue` increments the
iteration counter and stops past `max_iterations` or on repeated failures of
one tool; the data-flow diagram's `RecurCheck` gates every loop entry on
`Recursion Depth < maxDepth`, reporting `Max Depth Reached` and ending the
conversation otherwise. -/

/-- The `CircuitBreaker` state from the source. -/
structure CircuitBreaker where
  max_iterations : Nat := 10
  max_same_tool_failures : Nat := 3
  tool_failure_counts : List (String × Nat) := []
  iteration_count : Nat := 0
deriving DecidableEq

/-- Bump a per-tool failure count in the association list. -/
def bump_count (counts : List (String × Nat)) (tool_name : String) : List (String × Nat) :=
  match counts with
  | [] => [(tool_name, 1)]
  | (n, c) :: rest =>
    if n = tool_name then (n, c + 1) :: rest else (n, c) :: bump_count rest tool_name

/-- `CircuitBreaker.should_continue` from the source: increment
`iteration_count`; stop with "Max iterations reached" past `max_iterations`;
on a failure, bump the tool's failure count and stop once it exceeds
`max_same_tool_failures`; otherwise continue.  Returns the updated breaker,
the continue flag, and the stop reason. -/
def should_continue (cb : CircuitBreaker) (tool_name : Option String) (failed : Bool) :
    CircuitBreaker × Bool × Option String :=
  let cb1 := { cb with iteration_count := cb.iteration_count + 1 }
  if cb1.max_iterations < cb1.iteration_count then
    (cb1, false, some "Max iterations reached")
  else
    match failed, tool_name with
    | true, some name =>
      let cb2 := { cb1 with tool_failure_counts := bump_count cb1.tool_failure_counts name }
      if cb2.max_same_tool_failures < ((cb2.tool_failure_counts.lookup name).getD 0) then
        (cb2, false, some ("Tool " ++ name ++ " failing repeatedly"))
      else (cb2, true, none)
    | _, _ => (cb1, true, none)

/-- One model turn as the loop controller sees it: final text plus sealed
tool calls. -/
structure ModelTurn where
  content : String
  toolCalls : List ToolCallRequest := []
deriving DecidableEq

/-- The outcome the loop controller reports when it returns to idle. -/
inductive LoopOutcome where
  | completed
  | depthExceeded
deriving DecidableEq

/-- Modelled from the spec: the recursive driver (`RecurCheck` in the
data-flow diagram, spec 4.7).  At each entry, if `maxDepth ≤ depth` it stops
with a depth-exceeded report and returns to `Idle` making no model request;
otherwise it performs one model request and, when the turn carries tool
calls, increments the depth and recurses.  The returned `Nat` counts model
requests performed. -/
def loop_run (model : Nat → ModelTurn) (maxDepth depth : Nat) :
    AgentState × LoopOutcome × Nat :=
  if h : maxDepth ≤ depth then
    (AgentState.idle, LoopOutcome.depthExceeded, 0)
  else if (model depth).toolCalls = [] then
    (AgentState.idle, LoopOutcome.completed, 1)
  else
    ((loop_run model maxDepth (depth + 1)).1,
      (loop_run model maxDepth (depth + 1)).2.1,
      (loop_run model maxDepth (depth + 1)).2.2 + 1)
termination_by maxDepth - depth
decreasing_by omega

/-! ## Bridge stop-request guard (C10)

From `useBridge.ts`: `stopAgent` writes a `stop_agent` message to the
backend only when `stoppingRef.current` is false, and sets the flag; the
`stopped` case of `handleMessage` resets `stoppingRef.current` to false. -/

/-- The two guard-relevant occurrences at the bridge: a user stop request
(`stopAgent`) and a `stopped` event arriving from the backend. -/
inductive BridgeEvent where
  | stopRequest
  | stoppedEvt
deriving DecidableEq

/-- One step of the guard: `stopAgent` from the source (send only when the
flag is clear, then set it), and the flag reset from the `stopped` case of
`handleMessage`.  The `Nat` counts `stop_agent` messages written. -/
def guard_step (st : Bool × Nat) (e : BridgeEvent) : Bool × Nat :=
  match e with
  | BridgeEvent.stopRequest => if st.1 then st else (true, st.2 + 1)
  | BridgeEvent.stoppedEvt => (false, st.2)

/-- Run the bridge guard over a sequence of events from a given flag state,
counting the `stop_agent` messages written. -/
def guard_run (stopping : Bool) (evs : List BridgeEvent) : Bool × Nat :=
  evs.foldl guard_step (stopping, 0)

/-! ## Process-bridge frame extraction (C5)

From `useBridge.ts`: on each `data` event the reader appends the chunk to a
persistent buffer, extracts every `__MSG__(.*?)__END__` span with a fresh
global regex (the lazy payload ends at the first following `__END__`, and
the `.` class excludes newlines), parses each span's payload, and finally
discards the buffer up through the last occurrence of `__END__`
(`buffer.lastIndexOf('__END__')`, then `slice(lastEnd + 7)`), keeping the
rest so partial frames survive to the next read. -/

/-- The frame sentinel `__MSG__`. -/
def pfx : List Char := ['_', '_', 'M', 'S', 'G', '_', '_']

/-- The frame sentinel `__END__`. -/
def sfx : List Char := ['_', '_', 'E', 'N', 'D', '_', '_']

/-- A complete frame for a payload. -/
def frame (p : List Char) : List Char := pfx ++ p ++ sfx

/-- `pat` occurs in `s` at position `i`. -/
def OccursAt (pat s : List Char) (i : Nat) : Prop :=
  List.isPrefixOf pat (s.drop i) = true

/-- A payload is clean when it is newline-free and its frame contains the
suffix sentinel only as the frame terminator (this excludes payloads
containing `__END__` and payloads overlapping the sentinels, such as one
beginning `END__`). -/
def CleanPayload (p : List Char) : Prop :=
  (∀ c ∈ p, c ≠ '\n') ∧
    ∀ i < (frame p).length, OccursAt sfx (frame p) i → i = p.length + 7

instance occursAt_decidable (pat s : List Char) (i : Nat) : Decidable (OccursAt pat s i) :=
  inferInstanceAs (Decidable (List.isPrefixOf pat (s.drop i) = true))

instance cleanPayload_decidable (p : List Char) : Decidable (CleanPayload p) :=
  inferInstanceAs (Decidable ((∀ c ∈ p, c ≠ '\n') ∧
    ∀ i < (frame p).length, OccursAt sfx (frame p) i → i = p.length + 7))

/-- All payloads of a sequence are clean. -/
def CleanAll (ps : List (List Char)) : Prop := ∀ p ∈ ps, CleanPayload p

instance cleanAll_decidable (ps : List (List Char)) : Decidable (CleanAll ps) :=
  inferInstanceAs (Decidable (∀ p ∈ ps, CleanPayload p))

theorem guard_fold_shift (l : List BridgeEvent) : ∀ (b : Bool) (n : Nat),
    l.foldl guard_step (b, n) =
      ((l.foldl guard_step (b, 0)).1, n + (l.foldl guard_step (b, 0)).2) := by
  induction l with
  | nil => intro b n; simp
  | cons x xs ih =>
    intro b n
    cases x with
    | stopRequest =>
      by_cases hb : b
      · subst hb; simp only [List.foldl_cons, guard_step, if_true]
        rw [ih true n]
      · have hb' : b = false := by simpa using hb
        subst hb'
        simp only [List.foldl_cons, guard_step]
        rw [if_neg (by simp), if_neg (by simp)]
        rw [ih true (n + 1), ih true (0 + 1)]
        simp only [Prod.mk.injEq]
        exact ⟨trivial, by omega⟩
    | stoppedEvt =>
      simp only [List.foldl_cons, guard_step]
      rw [ih false n]

theorem guard_run_true_zero (evs : List BridgeEvent)
    (h : ∀ e ∈ evs, e ≠ BridgeEvent.stoppedEvt) : (guard_run true evs).2 = 0 := by
  induction evs with
  | nil => rfl
  | cons e rest ih =>
    cases e with
    | stopRequest =>
      simp only [guard_run, List.foldl_cons, guard_step, if_true] at *
      exact ih (fun x hx => h x (List.mem_cons_of_mem _ hx))
    | stoppedEvt => exact absurd rfl (h _ (List.mem_cons_self _ _))

theorem guard_run_false_le_one (evs : List BridgeEvent)
    (h : ∀ e ∈ evs, e ≠ BridgeEvent.stoppedEvt) : (guard_run false evs).2 ≤ 1 := by
  cases evs with
  | nil => exact Nat.zero_le 1
  | cons e rest =>
    cases e with
    | stopRequest =>
      have hrest : ∀ x ∈ rest, x ≠ BridgeEvent.stoppedEvt :=
        fun x hx => h x (List.mem_cons_of_mem _ hx)
      have h0 : (guard_run true rest).2 = 0 := guard_run_true_zero rest hrest
      simp only [guard_run, List.foldl_cons, guard_step] at *
      rw [if_neg (by simp)]
      rw [guard_fold_shift rest true (0 + 1)]
      omega
    | stoppedEvt => exact absurd rfl (h _ (List.mem_cons_self _ _))

/-- Claim C10: stop requests are deduplicated at the bridge.  With no
intervening `stopped` event, at most one `stop_agent` message is written
(none at all when the guard flag is already set); and a `stopped` event
resets the guard, so a stop request arriving after it is written again. -/
theorem bridge_stop_dedup (evs : List BridgeEvent) (stopping : Bool) :
    ((∀ e ∈ evs, e ≠ BridgeEvent.stoppedEvt) →
      (guard_run false evs).2 ≤ 1 ∧ (guard_run true evs).2 = 0) ∧
    (guard_run stopping (evs ++ [BridgeEvent.stoppedEvt, BridgeEvent.stopRequest])).2 =
      (guard_run stopping evs).2 + 1 := by
  constructor
  · intro h
    exact ⟨guard_run_false_le_one evs h, guard_run_true_zero evs h⟩
  · simp only [guard_run, List.foldl_append, List.foldl_cons, List.foldl_nil]
    set st := evs.foldl guard_step (stopping, 0) with hst
    show (guard_step (guard_step st BridgeEvent.stoppedEvt) BridgeEvent.stopRequest).2 = st.2 + 1
    simp [guard_step]

/-- Witness for C10 at a concrete event sequence. -/
theorem bridge_stop_dedup_witness :
    ((guard_run false [BridgeEvent.stopRequest, BridgeEvent.stopRequest]).2 ≤ 1 ∧
      (guard_run true [BridgeEvent.stopRequest, BridgeEvent.stopRequest]).2 = 0) ∧
    (guard_run false ([BridgeEvent.stopRequest] ++
        [BridgeEvent.stoppedEvt, BridgeEvent.stopRequest])).2 =
      (guard_run false [BridgeEvent.stopRequest]).2 + 1 := by
  have h := bridge_stop_dedup [BridgeEvent.stopRequest, BridgeEvent.stopRequest] false
  have h2 := bridge_stop_dedup [BridgeEvent.stopRequest] false
  exact ⟨h.1 (by intro e he; fin_cases he <;> simp), h2.2⟩

/-! ## Registry theorems (C7) -/

/-- Claim C7: `execute_tool` never propagates an executor error across its
boundary.  An unknown tool name yields a structured not-found failure; an
executor that raises has its error caught and converted into a
`"Tool failed: ..."` failure result; a successful executor's value is
passed through.  In every case the loop receives a plain `ToolResult`. -/
theorem execute_tool_total (reg : ToolRegistry) (tool_name args : String) :
    (List.lookup tool_name reg = none →
      execute_tool reg tool_name args =
        { ok := false, message := "Tool " ++ tool_name ++ " not found" }) ∧
    (∀ f e, List.lookup tool_name reg = some f → f args = Except.error e →
      execute_tool reg tool_name args =
        { ok := false, message := "Tool failed: " ++ e }) ∧
    (∀ f v, List.lookup tool_name reg = some f → f args = Except.ok v →
      execute_tool reg tool_name args = { ok := true, message := v }) := by
  refine ⟨?_, ?_, ?_⟩
  · intro h
    simp [execute_tool, run_tool, h]
  · intro f e hf he
    simp [execute_tool, run_tool, hf, he]
  · intro f v hf hv
    simp [execute_tool, run_tool, hf, hv]

/-- Witness for C7: a registry with one raising executor, evaluated at an
unknown name and at the raising tool. -/
theorem execute_tool_total_witness :
    execute_tool [("boom", fun _ => Except.error "exploded")] "missing" "x" =
      { ok := false, message := "Tool missing not found" } ∧
    execute_tool [("boom", fun _ => Except.error "exploded")] "boom" "x" =
      { ok := false, message := "Tool failed: exploded" } := by
  refine ⟨(execute_tool_total [("boom", fun _ => Except.error "exploded")] "missing" "x").1 ?_,
    (execute_tool_total [("boom", fun _ => Except.error "exploded")] "boom" "x").2.1
      (fun _ => Except.error "exploded") "exploded" ?_ rfl⟩
  · rfl
  · rfl

/-! ## Tool batch theorems (C3) -/

theorem run_tool_batch_spec (reg : ToolRegistry) (approve : ToolCallRequest → Decision)
    (calls : List ToolCallRequest) : ∀ history : List Message,
    run_tool_batch reg approve history calls =
      history ++ calls.map (fun c =>
        { role := Role.tool, content := tool_call_content reg approve c,
          toolCallId := some c.id }) := by
  induction calls with
  | nil => intro history; simp [run_tool_batch]
  | cons c rest ih =>
    intro history
    simp only [run_tool_batch, List.foldl_cons, List.map_cons] at *
    rw [ih]
    simp [append_tool_message]

/-- Claim C3: for an assistant message with `n` sealed tool calls, the tool
execution loop appends exactly `n` tool-role messages, the `i`-th appended
message carrying `toolCallId` equal to the id of the `i`-th call — so each
appended tool message answers a distinct call of the triggering assistant
message, whether the call was executed, failed, or denied. -/
theorem tool_batch_pairing (reg : ToolRegistry) (approve : ToolCallRequest → Decision)
    (history : List Message) (calls : List ToolCallRequest) :
    (run_tool_batch reg approve history calls).take history.length = history ∧
    ((run_tool_batch reg approve history calls).drop history.length).length = calls.length ∧
    ((run_tool_batch reg approve history calls).drop history.length).map
        (fun m => m.toolCallId) = calls.map (fun c => some c.id) ∧
    ∀ m ∈ (run_tool_batch reg approve history calls).drop history.length,
      m.role = Role.tool := by
  rw [run_tool_batch_spec]
  refine ⟨by simp, by simp, ?_, ?_⟩
  · rw [List.drop_left]
    simp [Function.comp]
  · rw [List.drop_left]
    intro m hm
    obtain ⟨c, _, hc⟩ := List.mem_map.1 hm
    rw [← hc]

/-! ## Stream reassembly lemmas (C1) -/

theorem filterMap_frag_args_nil (idx : Nat) (frags : List ToolCallDelta)
    (h : refs_idx idx frags = false) : frags.filterMap (frag_args idx) = [] := by
  induction frags with
  | nil => rfl
  | cons f rest ih =>
    simp only [refs_idx, List.any_cons, Bool.or_eq_false_iff] at h
    have hf : ¬ f.index = idx := by
      intro hh
      rw [hh] at h
      simp at h
    simp only [List.filterMap_cons, frag_args, if_neg hf]
    exact ih (by simpa [refs_idx] using h.2)

theorem args_at_accumulate (idx : Nat) (d : ToolCallDelta) :
    ∀ calls : List (Nat × ToolCallBuild),
    args_at idx (accumulate_tool_call calls d) =
      if d.index = idx then
        some ((args_at idx calls).getD "" ++ d.argumentsText.getD "")
      else args_at idx calls := by
  intro calls
  induction calls with
  | nil =>
    by_cases h : d.index = idx
    · simp [accumulate_tool_call, args_at, lookup_call, h]
    · simp [accumulate_tool_call, args_at, lookup_call, h]
  | cons p rest ih =>
    obtain ⟨i, c⟩ := p
    simp only [accumulate_tool_call]
    by_cases hi : i = d.index
    · rw [if_pos hi]
      by_cases h : d.index = idx
      · rw [if_pos h]
        subst h
        subst hi
        simp [args_at, lookup_call]
      · rw [if_neg h]
        have hii : ¬ i = idx := by rw [hi]; exact h
        simp [args_at, lookup_call, hii]
    · rw [if_neg hi]
      by_cases h : i = idx
      · have hd : ¬ d.index = idx := by
          rw [← h]
          intro hh
          exact hi hh.symm
        rw [if_neg hd]
        simp [args_at, lookup_call, h]
      · simp only [args_at, lookup_call, if_neg h]
        exact ih

theorem args_at_fold_frags (idx : Nat) (frags : List ToolCallDelta) :
    ∀ calls : List (Nat × ToolCallBuild),
    args_at idx (frags.foldl accumulate_tool_call calls) =
      match args_at idx calls with
      | some a => some (a ++ concat_all (frags.filterMap (frag_args idx)))
      | none =>
        if refs_idx idx frags then some (concat_all (frags.filterMap (frag_args idx)))
        else none := by
  induction frags with
  | nil =>
    intro calls
    cases h : args_at idx calls <;> simp [refs_idx, concat_all, h]
  | cons f rest ih =>
    intro calls
    simp only [List.foldl_cons]
    rw [ih (accumulate_tool_call calls f), args_at_accumulate idx f calls]
    by_cases hf : f.index = idx
    · subst hf
      rw [if_pos rfl]
      have hrefs : refs_idx f.index (f :: rest) = true := by
        simp [refs_idx]
      cases h : args_at f.index calls with
      | some a =>
        cases ha : f.argumentsText with
        | some s =>
          simp [h, ha, List.filterMap_cons, frag_args, concat_all, String.append_assoc]
        | none =>
          simp [h, ha, List.filterMap_cons, frag_args]
      | none =>
        rw [hrefs]
        cases ha : f.argumentsText with
        | some s =>
          simp [h, ha, List.filterMap_cons, frag_args, concat_all]
        | none =>
          simp [h, ha, List.filterMap_cons, frag_args]
    · rw [if_neg hf]
      have hb : (f.index == idx) = false := by
        simp [hf]
      have hfm : (f :: rest).filterMap (frag_args idx) = rest.filterMap (frag_args idx) := by
        simp [List.filterMap_cons, frag_args, if_neg hf]
      have hrefs : refs_idx idx (f :: rest) = refs_idx idx rest := by
        simp [refs_idx, List.any_cons, hb]
      rw [hfm, hrefs]

theorem process_delta_tool_calls (st : StreamState) (d : StreamDelta) :
    (process_delta st d).tool_calls = d.tool_calls.foldl accumulate_tool_call st.tool_calls := by
  cases hd : d.content <;> simp [process_delta, hd]

theorem process_delta_content (st : StreamState) (d : StreamDelta) :
    (process_delta st d).content_buffer =
      st.content_buffer ++ (d.content.getD "") := by
  cases hd : d.content <;> simp [process_delta, hd]

theorem args_at_process_fold (idx : Nat) (deltas : List StreamDelta) :
    ∀ st : StreamState,
    args_at idx (deltas.foldl process_delta st).tool_calls =
      match args_at idx st.tool_calls with
      | some a => some (a ++ concat_all (arg_fragments idx deltas))
      | none =>
        if deltas.any (fun d => refs_idx idx d.tool_calls) then
          some (concat_all (arg_fragments idx deltas))
        else none := by
  induction deltas with
  | nil =>
    intro st
    cases h : args_at idx st.tool_calls <;> simp [arg_fragments, concat_all, h]
  | cons d rest ih =>
    intro st
    simp only [List.foldl_cons]
    rw [ih (process_delta st d), process_delta_tool_calls, args_at_fold_frags]
    have hjoin : concat_all (arg_fragments idx (d :: rest)) =
        concat_all (d.tool_calls.filterMap (frag_args idx)) ++
          concat_all (arg_fragments idx rest) := by
      have happ : ∀ (l1 l2 : List String),
          concat_all (l1 ++ l2) = concat_all l1 ++ concat_all l2 := by
        intro l1 l2
        induction l1 with
        | nil => simp [concat_all]
        | cons a t iht => simp [concat_all, iht, String.append_assoc]
      simp only [arg_fragments, List.map_cons, List.flatten_cons]
      exact happ _ _
    cases h : args_at idx st.tool_calls with
    | some a =>
      simp only [h]
      by_cases hr : refs_idx idx d.tool_calls <;>
        simp [hjoin, String.append_assoc, hr]
    | none =>
      simp only [h]
      by_cases hr : refs_idx idx d.tool_calls
      · simp [hr, hjoin]
      · have hnil : d.tool_calls.filterMap (frag_args idx) = [] :=
          filterMap_frag_args_nil idx d.tool_calls (by simpa using hr)
        by_cases hrest : rest.any (fun d => refs_idx idx d.tool_calls) <;>
          simp [hr, hrest, hjoin, hnil, concat_all]

/-- Claim C1: for every delta sequence interleaving text and multi-index
tool-call fragments, the reassembled call at index `idx` has arguments equal
to the concatenation, in arrival order, of exactly that index's argument
fragments — independent of how other indices' fragments or text deltas
interleave. -/
theorem stream_reassembly (deltas : List StreamDelta) (idx : Nat) (c : ToolCallBuild)
    (h : lookup_call idx (process_stream deltas).tool_calls = some c) :
    c.argumentsText = concat_all (arg_fragments idx deltas) := by
  have hfold := args_at_process_fold idx deltas { content_buffer := "", tool_calls := [] }
  rw [show args_at idx (StreamState.mk "" []).tool_calls = none from rfl] at hfold
  simp only [process_stream] at h
  rw [show (deltas.foldl process_delta { content_buffer := "", tool_calls := [] }) =
    (deltas.foldl process_delta (StreamState.mk "" [])) from rfl] at h
  have hsome : args_at idx (deltas.foldl process_delta (StreamState.mk "" [])).tool_calls =
      some c.argumentsText := by
    simp [args_at, h]
  rw [hfold] at hsome
  by_cases hany : deltas.any (fun d => refs_idx idx d.tool_calls)
  · rw [if_pos hany] at hsome
    exact (Option.some.inj hsome).symm
  · rw [if_neg hany] at hsome
    exact absurd hsome (by simp)

/-! ## Render/parse round-trip theorems (C9) -/

theorem word_not_ws (c : Char) (h : word_char c = true) : ws_char c = false := by
  cases hx : ws_char c
  · rfl
  · exfalso
    have hx2 : decide (c ∈ ws_chars) = true := hx
    have hmem : c ∈ ws_chars := of_decide_eq_true hx2
    have hall : ∀ x ∈ ws_chars, word_char x = false := by decide
    rw [hall c hmem] at h
    exact Bool.noConfusion h

theorem takeWhile_append_stop (p : Char → Bool) (x : Char) (l2 : List Char)
    (hx : p x = false) : ∀ l1 : List Char, (∀ c ∈ l1, p c = true) →
    (l1 ++ x :: l2).takeWhile p = l1 ∧ (l1 ++ x :: l2).dropWhile p = x :: l2 := by
  intro l1
  induction l1 with
  | nil =>
    intro _
    simp [List.takeWhile_cons, List.dropWhile_cons, hx]
  | cons c cs ih =>
    intro h
    have hc : p c = true := h c (List.mem_cons_self _ _)
    have hrest := ih (fun d hd => h d (List.mem_cons_of_mem _ hd))
    simp only [List.cons_append, List.takeWhile_cons, List.dropWhile_cons, hc, if_true]
    exact ⟨by rw [hrest.1], by rw [hrest.2]⟩

theorem dropWhile_head_not (p : Char → Bool) (l : List Char)
    (h : ∀ c, l.head? = some c → p c = false) : l.dropWhile p = l := by
  cases l with
  | nil => rfl
  | cons c cs =>
    have hc : p c = false := h c rfl
    simp [List.dropWhile_cons, hc]

theorem string_mk_data (s : String) : String.mk s.data = s := rfl

theorem parse_status_ok (rest : List Char) :
    parse_status ('[' :: 'o' :: 'k' :: ']' :: rest) =
      some (['[', 'o', 'k', ']'], rest) := by
  simp [parse_status, List.isPrefixOf]

theorem parse_status_bang (rest : List Char) :
    parse_status ('[' :: '!' :: ']' :: rest) =
      some (['[', '!', ']'], rest) := by
  simp [parse_status, List.isPrefixOf]

/-- Counterexample for C9 as stated: the round trip is not exact for every
word-character name and every string result.  A result with leading
whitespace comes back with that whitespace stripped by the greedy `\s*`,
and an empty name (vacuously all word characters) is rendered under the
`tool` fallback, so the parsed name differs from the original. -/
theorem parse_round_trip_counterexample :
    parse_tool_message (render_tool_message "t" (some true) " x") =
      some { status := "[ok]", toolName := "t", result := "x" } ∧
    (" x" : String) ≠ "x" ∧
    parse_tool_message (render_tool_message "" (some true) "r") =
      some { status := "[ok]", toolName := "tool", result := "r" } ∧
    ("" : String) ≠ "tool" := by
  refine ⟨by decide, by decide, by decide, by decide⟩

/-- Claim C9 (amended): for every tool name that is a nonempty string of
word characters and every result string that does not begin with an
ECMAScript whitespace character (the full `\s` class, including NBSP,
ZWNBSP, the Zs separators and LS/PS), parsing the rendered tool message
returns exactly the original status tag, tool name, and result text. -/
theorem parse_round_trip (tool_name : String) (success : Option Bool) (result : String)
    (hn : tool_name ≠ "") (hw : ∀ c ∈ tool_name.data, word_char c = true)
    (hr : ∀ c, result.data.head? = some c → ws_char c = false) :
    parse_tool_message (render_tool_message tool_name success result) =
      some { status := if success = some false then "[!]" else "[ok]",
             toolName := tool_name, result := result } := by
  obtain ⟨nc, ncs, hnm⟩ : ∃ c cs, tool_name.data = c :: cs := by
    cases htn : tool_name.data with
    | nil =>
      exfalso
      apply hn
      have := string_mk_data tool_name
      rw [htn] at this
      exact this.symm
    | cons c cs => exact ⟨c, cs, rfl⟩
  have hncw : word_char nc = true := hw nc (by rw [hnm]; exact List.mem_cons_self _ _)
  have hncs : ws_char nc = false := word_not_ws nc hncw
  have hwsplit := takeWhile_append_stop ws_char nc
    (ncs ++ ':' :: ' ' :: result.data) hncs [' ']
    (by intro c hc; simp at hc; subst hc; decide)
  have hcolon : word_char ':' = false := by decide
  have hnsplit := takeWhile_append_stop word_char ':' (' ' :: result.data) hcolon
    tool_name.data hw
  have hres : result.data.dropWhile ws_char = result.data := dropWhile_head_not ws_char _ hr
  have hsp1 : ' ' :: (tool_name.data ++ ':' :: ' ' :: result.data) =
      [' '] ++ nc :: (ncs ++ ':' :: ' ' :: result.data) := by
    rw [hnm]
    rfl
  have hsp2 : nc :: (ncs ++ ':' :: ' ' :: result.data) =
      tool_name.data ++ ':' :: ' ' :: result.data := by
    rw [hnm]
    rfl
  have hguard : tool_name.data.isEmpty = false := by
    rw [hnm]
    rfl
  have hdrop : (' ' :: result.data).dropWhile ws_char = result.data := by
    rw [List.dropWhile_cons, if_pos (by decide : ws_char ' ' = true)]
    exact hres
  by_cases hs : success = some false
  · have hrender : render_tool_message tool_name success result =
        "[!]" ++ " " ++ tool_name ++ ": " ++ result := by
      simp [render_tool_message, if_neg hn, hs]
    have hdata : ("[!]" ++ " " ++ tool_name ++ ": " ++ result).data =
        '[' :: '!' :: ']' :: ' ' :: (tool_name.data ++ ':' :: ' ' :: result.data) := by
      simp [String.data_append]
    rw [hrender]
    simp only [parse_tool_message, hdata]
    rw [show ('[' :: '!' :: ']' :: ' ' ::
        (tool_name.data ++ ':' :: ' ' :: result.data) : List Char) =
      '[' :: '!' :: ']' :: (' ' :: (tool_name.data ++ ':' :: ' ' :: result.data)) from rfl]
    rw [parse_status_bang]
    simp only [hsp1]
    rw [hwsplit.1, hwsplit.2]
    simp only [hsp2]
    rw [hnsplit.1, hnsplit.2]
    simp only [List.isEmpty_cons, Bool.false_eq_true, if_false, hguard, hdrop,
      string_mk_data, if_pos rfl]
    simp [hs]
  · have hrender : render_tool_message tool_name success result =
        "[ok]" ++ " " ++ tool_name ++ ": " ++ result := by
      simp [render_tool_message, if_neg hn, hs]
    have hdata : ("[ok]" ++ " " ++ tool_name ++ ": " ++ result).data =
        '[' :: 'o' :: 'k' :: ']' :: ' ' ::
          (tool_name.data ++ ':' :: ' ' :: result.data) := by
      simp [String.data_append]
    rw [hrender]
    simp only [parse_tool_message, hdata]
    rw [show ('[' :: 'o' :: 'k' :: ']' :: ' ' ::
        (tool_name.data ++ ':' :: ' ' :: result.data) : List Char) =
      '[' :: 'o' :: 'k' :: ']' ::
        (' ' :: (tool_name.data ++ ':' :: ' ' :: result.data)) from rfl]
    rw [parse_status_ok]
    simp only [hsp1]
    rw [hwsplit.1, hwsplit.2]
    simp only [hsp2]
    rw [hnsplit.1, hnsplit.2]
    simp only [List.isEmpty_cons, Bool.false_eq_true, if_false, hguard, hdrop,
      string_mk_data, if_pos rfl]
    simp [hs]

/-- Witness for C9 (amended) at a concrete event: `grep_search` succsessful
result round-trips exactly. -/
theorem parse_round_trip_witness :
    parse_tool_message (render_tool_message "grep_search" none "3 matches") =
      some { status := "[ok]", toolName := "grep_search", result := "3 matches" } := by
  have h := parse_round_trip "grep_search" none "3 matches"
    (by decide) (by decide) (by decide)
  simpa using h

/-! ## Stop-path theorems (C6) -/

theorem fold_process_content (l : List StreamDelta) : ∀ st : StreamState,
    (l.foldl process_delta st).content_buffer =
      st.content_buffer ++ concat_all (l.filterMap (fun d => d.content)) := by
  induction l with
  | nil => intro st; simp [concat_all]
  | cons d ds ih =>
    intro st
    simp only [List.foldl_cons]
    rw [ih (process_delta st d), process_delta_content]
    cases hd : d.content with
    | some s =>
      simp [List.filterMap_cons, hd, concat_all, String.append_assoc]
    | none =>
      simp [List.filterMap_cons, hd]

theorem consume_go_stop (k : Nat) :
    ∀ (deltas : List StreamDelta) (st : StreamState)
      (ps : List (Option InterruptSignal)), k < deltas.length →
    consume_go st deltas
        (List.replicate k none ++ some InterruptSignal.stopSignal :: ps) =
      ((deltas.take k).foldl process_delta st, TurnOutcome.stopped) := by
  induction k with
  | zero =>
    intro deltas st ps hk
    cases deltas with
    | nil => simp at hk
    | cons d ds => rfl
  | succ k ih =>
    intro deltas st ps hk
    cases deltas with
    | nil => simp at hk
    | cons d ds =>
      have hk' : k < ds.length := by simpa using hk
      simp only [List.replicate_succ, List.cons_append, List.take_succ_cons,
        List.foldl_cons]
      rw [show consume_go st (d :: ds)
          (none :: (List.replicate k none ++ some InterruptSignal.stopSignal :: ps)) =
          consume_go (process_delta st d) ds
            (List.replicate k none ++ some InterruptSignal.stopSignal :: ps) from rfl]
      exact ih ds (process_delta st d) ps hk'

/-- Claim C6: if a `StopSignal` is consumed after `k` deltas of a stream have
been processed, the turn is aborted — the assistant message content is
exactly the concatenation of the first `k` deltas' text, no tool calls are
handed to the execution pipeline, the `stopped` event is the only one
emitted, the controller returns to `Idle`, and the UI records the explicit
`[x] Agent stopped` message and returns to `ready`. -/
theorem stop_signal_aborts_turn (deltas : List StreamDelta) (k : Nat)
    (ps : List (Option InterruptSignal)) (ui : UiState) (hk : k < deltas.length) :
    (run_turn deltas
        (List.replicate k none ++ some InterruptSignal.stopSignal :: ps)).assistant.content =
      concat_all ((deltas.take k).filterMap (fun d => d.content)) ∧
    (run_turn deltas
        (List.replicate k none ++ some InterruptSignal.stopSignal :: ps)).executedTools = [] ∧
    (run_turn deltas
        (List.replicate k none ++ some InterruptSignal.stopSignal :: ps)).events = ["stopped"] ∧
    (run_turn deltas
        (List.replicate k none ++ some InterruptSignal.stopSignal :: ps)).finalState =
      AgentState.idle ∧
    ((run_turn deltas
        (List.replicate k none ++ some InterruptSignal.stopSignal :: ps)).events.foldl
          ui_handle ui).mode = "ready" ∧
    ((run_turn deltas
        (List.replicate k none ++ some InterruptSignal.stopSignal :: ps)).events.foldl
          ui_handle ui).uimessages =
      ui.uimessages ++ [("system", "[x] Agent stopped")] := by
  have hc := consume_go_stop k deltas { content_buffer := "", tool_calls := [] } ps hk
  simp only [run_turn, hc]
  refine ⟨?_, trivial, trivial, trivial, by simp [ui_handle], by simp [ui_handle]⟩
  rw [fold_process_content]
  simp

/-- Witness for C6: the spec's scenario — a stop arrives after 2 of 5 text
deltas; the assistant message holds exactly the first two deltas' text, no
tools run, and the UI shows the stop record in ready mode. -/
theorem stop_signal_aborts_turn_witness :
    (run_turn
        [ { content := some "one " }, { content := some "two " },
          { content := some "three " }, { content := some "four " },
          { content := some "five" } ]
        (List.replicate 2 none ++ some InterruptSignal.stopSignal :: [])).assistant.content =
      concat_all (([ { content := some "one " }, { content := some "two " },
          { content := some "three " }, { content := some "four " },
          { content := some "five" } ] : List StreamDelta).take 2 |>.filterMap
            (fun d => d.content)) ∧
    (run_turn
        [ { content := some "one " }, { content := some "two " },
          { content := some "three " }, { content := some "four " },
          { content := some "five" } ]
        (List.replicate 2 none ++ some InterruptSignal.stopSignal :: [])).executedTools = [] ∧
    ((run_turn
        [ { content := some "one " }, { content := some "two " },
          { content := some "three " }, { content := some "four " },
          { content := some "five" } ]
        (List.replicate 2 none ++ some InterruptSignal.stopSignal :: [])).events.foldl
          ui_handle { mode := "responding", uimessages := [] }).uimessages =
      [("system", "[x] Agent stopped")] := by
  have h := stop_signal_aborts_turn
    [ { content := some "one " }, { content := some "two " },
      { content := some "three " }, { content := some "four " },
      { content := some "five" } ] 2 []
    { mode := "responding", uimessages := [] } (by decide)
  exact ⟨h.1, h.2.1, by rw [h.2.2.2.2.2]; rfl⟩

/-! ## Loop controller theorems (C4) -/

theorem loop_run_requests_le (model : Nat → ModelTurn) (maxDepth : Nat) :
    ∀ n depth, maxDepth - depth ≤ n →
      (loop_run model maxDepth depth).2.2 ≤ maxDepth - depth := by
  intro n
  induction n with
  | zero =>
    intro depth h
    have hd : maxDepth ≤ depth := by omega
    rw [loop_run, dif_pos hd]
    exact Nat.zero_le _
  | succ n ih =>
    intro depth h
    by_cases hd : maxDepth ≤ depth
    · rw [loop_run, dif_pos hd]
      exact Nat.zero_le _
    · rw [loop_run, dif_neg hd]
      by_cases ht : (model depth).toolCalls = []
      · rw [if_pos ht]
        show 1 ≤ maxDepth - depth
        omega
      · rw [if_neg ht]
        have hrec := ih (depth + 1) (by omega)
        show (loop_run model maxDepth (depth + 1)).2.2 + 1 ≤ maxDepth - depth
        omega

/-- Claim C4: when the recursion depth has reached `maxDepth`, the loop
controller performs no further model request — it reports the
depth-exceeded outcome and returns to `Idle` without any other effect; the
loop terminates on every input since each tool-call recursion increments the
depth and the total number of requests is bounded by `maxDepth - depth`.
The circuit breaker agrees: `should_continue` refuses once its iteration
count has reached `max_iterations`. -/
theorem loop_depth_guard (model : Nat → ModelTurn) (maxDepth depth : Nat) :
    (maxDepth ≤ depth →
      loop_run model maxDepth depth =
        (AgentState.idle, LoopOutcome.depthExceeded, 0)) ∧
    (loop_run model maxDepth depth).2.2 ≤ maxDepth - depth ∧
    (∀ cb : CircuitBreaker, cb.max_iterations ≤ cb.iteration_count →
      (should_continue cb none false).2 = (false, some "Max iterations reached")) := by
  refine ⟨?_, loop_run_requests_le model maxDepth (maxDepth - depth) depth le_rfl, ?_⟩
  · intro hd
    rw [loop_run, dif_pos hd]
  · intro cb hcb
    unfold should_continue
    rw [if_pos (by simpa using Nat.lt_succ_of_le hcb)]

/-- Witness for C4: at depth 5 with `maxDepth` 3 the loop makes no request
and reports depth exceeded; a breaker at its iteration cap refuses. -/
theorem loop_depth_guard_witness :
    loop_run (fun _ => { content := "hi" }) 3 5 =
      (AgentState.idle, LoopOutcome.depthExceeded, 0) ∧
    (should_continue { iteration_count := 10 } none false).2 =
      (false, some "Max iterations reached") := by
  have h := loop_depth_guard (fun _ => { content := "hi" }) 3 5
  exact ⟨h.1 (by omega), h.2.2 { iteration_count := 10 } (by decide)⟩

/-! ## Compression lemmas (C2, C8) -/

theorem strip_go_head (k : Nat) (ms : List Message) (m : Message)
    (hh : ms.head? = some m) (hm : m.role ≠ Role.tool) :
    (strip_go k ms).head? = some m := by
  cases ms with
  | nil => simp at hh
  | cons x rest =>
    have hx : x = m := by simpa using hh
    subst hx
    cases k with
    | zero => simp [strip_go]
    | succ k => simp [strip_go, if_neg hm]

theorem strip_go_last_user (ms : List Message) : ∀ k : Nat,
    last_user (strip_go k ms) = last_user ms := by
  induction ms with
  | nil => intro k; cases k <;> rfl
  | cons m rest ih =>
    intro k
    cases k with
    | zero => rfl
    | succ k =>
      by_cases hm : m.role = Role.tool
      · have hnu : ¬ m.role = Role.user := by rw [hm]; intro h; exact Role.noConfusion h
        simp only [strip_go, if_pos hm, last_user, ih k]
        cases h : last_user rest with
        | some u => rfl
        | none => simp [if_neg hnu]
      · simp only [strip_go, if_neg hm, last_user, ih (k + 1)]

theorem last_user_cons (m : Message) (rest : List Message) :
    last_user (m :: rest) =
      match last_user rest with
      | some u => some u
      | none => if m.role = Role.user then some m else none := rfl

theorem last_user_idx_cons (m : Message) (rest : List Message) :
    last_user_idx (m :: rest) =
      match last_user_idx rest with
      | some i => some (i + 1)
      | none => if m.role = Role.user then some 0 else none := rfl

theorem last_user_mem (ms : List Message) (u : Message) (h : last_user ms = some u) :
    u ∈ ms := by
  induction ms with
  | nil => simp [last_user] at h
  | cons m rest ih =>
    cases hr : last_user rest with
    | some v =>
      have h2 : some v = some u := by rw [← h, last_user_cons, hr]
      exact List.mem_cons_of_mem _ (ih (hr.trans h2))
    | none =>
      have h2 : (if m.role = Role.user then some m else none) = some u := by
        rw [← h, last_user_cons, hr]
      by_cases hm : m.role = Role.user
      · rw [if_pos hm] at h2
        exact (Option.some.inj h2) ▸ List.mem_cons_self _ _
      · rw [if_neg hm] at h2
        exact absurd h2 (by simp)

theorem last_user_idx_none (ms : List Message) (h : last_user ms = none) :
    last_user_idx ms = none := by
  induction ms with
  | nil => rfl
  | cons m rest ih =>
    cases hr : last_user rest with
    | some v =>
      exfalso
      have h2 : some v = none := by rw [← h, last_user_cons, hr]
      exact Option.noConfusion h2
    | none =>
      have h2 := h
      simp only [last_user_cons, hr] at h2
      by_cases hm : m.role = Role.user
      · rw [if_pos hm] at h2
        exact absurd h2 (by simp)
      · rw [last_user_idx_cons, ih hr, if_neg hm]

theorem last_user_idx_of_last_user (ms : List Message) (u : Message)
    (h : last_user ms = some u) :
    ∃ i, last_user_idx ms = some i ∧ ms[i]? = some u := by
  induction ms with
  | nil => simp [last_user] at h
  | cons m rest ih =>
    cases hr : last_user rest with
    | some v =>
      have h2 : some v = some u := by rw [← h, last_user_cons, hr]
      obtain ⟨i, hi, hg⟩ := ih (hr.trans h2)
      refine ⟨i + 1, ?_, by simpa using hg⟩
      rw [last_user_idx_cons, hi]
    | none =>
      have h2 : (if m.role = Role.user then some m else none) = some u := by
        rw [← h, last_user_cons, hr]
      by_cases hm : m.role = Role.user
      · rw [if_pos hm] at h2
        refine ⟨0, ?_, by simpa using h2⟩
        rw [last_user_idx_cons, last_user_idx_none rest hr, if_pos hm]
      · rw [if_neg hm] at h2
        exact absurd h2 (by simp)

theorem crop_middle_head (k : Nat) (ms : List Message) (m : Message)
    (hh : ms.head? = some m) : (crop_middle_messages k ms).head? = some m := by
  unfold crop_middle_messages
  by_cases he : crop_end k ms ≤ 2
  · simpa [he] using hh
  · rw [if_neg he]
    cases ms with
    | nil => simp at hh
    | cons x rest =>
      have hx : x = m := by simpa using hh
      subst hx
      simp

theorem crop_middle_last_user (k : Nat) (ms : List Message) (u : Message)
    (h : last_user ms = some u) : u ∈ crop_middle_messages k ms := by
  unfold crop_middle_messages
  by_cases he : crop_end k ms ≤ 2
  · simpa [he] using last_user_mem ms u h
  · rw [if_neg he]
    obtain ⟨i, hi, hg⟩ := last_user_idx_of_last_user ms u h
    have hle : crop_end k ms ≤ i := by
      have h1 : crop_end k ms ≤ (last_user_idx ms).getD ms.length := by
        unfold crop_end
        exact le_trans (min_le_right _ _) (min_le_left _ _)
      rw [hi] at h1
      simpa using h1
    have hmem : u ∈ ms.drop (crop_end k ms) := by
      have hidx : (ms.drop (crop_end k ms))[i - crop_end k ms]? = some u := by
        rw [List.getElem?_drop]
        have harith : crop_end k ms + (i - crop_end k ms) = i := by omega
        rw [harith]
        exact hg
      exact List.get?_mem (by rw [List.get?_eq_getElem?]; exact hidx)
    simp only [List.append_assoc, List.mem_append]
    right
    right
    exact hmem

/-- Claim C2: after any run of compression — phase 1 (old-tool-result
stripping), phase 2 (middle cropping), or their composition
`compress_context` — the first message when it has role `system`, and the
most recent user message, are still present and byte-identical (as complete
`Message` values) to their values before compression. -/
theorem compression_preserves_anchors (keepN k limit : Nat) (ms : List Message) :
    (∀ m, ms.head? = some m → m.role = Role.system →
      (remove_old_tool_results keepN ms).head? = some m ∧
      (crop_middle_messages k ms).head? = some m ∧
      (compress_context keepN k limit ms).head? = some m) ∧
    (∀ u, last_user ms = some u →
      u ∈ remove_old_tool_results keepN ms ∧
      u ∈ crop_middle_messages k ms ∧
      u ∈ compress_context keepN k limit ms) := by
  constructor
  · intro m hh hsys
    have hnt : m.role ≠ Role.tool := by rw [hsys]; intro h; exact Role.noConfusion h
    have h1 : (remove_old_tool_results keepN ms).head? = some m :=
      strip_go_head _ ms m hh hnt
    refine ⟨h1, crop_middle_head k ms m hh, ?_⟩
    unfold compress_context
    by_cases hover : limit < estimate_tokens (remove_old_tool_results keepN ms)
    · rw [if_pos hover]
      exact crop_middle_head k _ m h1
    · rw [if_neg hover]
      exact h1
  · intro u hu
    have h1 : last_user (remove_old_tool_results keepN ms) = some u := by
      rw [remove_old_tool_results, strip_go_last_user]
      exact hu
    refine ⟨last_user_mem _ u h1, crop_middle_last_user k ms u hu, ?_⟩
    unfold compress_context
    by_cases hover : limit < estimate_tokens (remove_old_tool_results keepN ms)
    · rw [if_pos hover]
      exact crop_middle_last_user k _ u h1
    · rw [if_neg hover]
      exact last_user_mem _ u h1

/-- Witness for C2 at a concrete history: the system head and the most
recent user message survive all compression runs byte-identically. -/
theorem compression_preserves_anchors_witness :
    ((remove_old_tool_results 1 example_history).head? =
        some { role := Role.system, content := "You are Hakken." } ∧
      (crop_middle_messages 1 example_history).head? =
        some { role := Role.system, content := "You are Hakken." } ∧
      (compress_context 1 1 0 example_history).head? =
        some { role := Role.system, content := "You are Hakken." }) ∧
    (({ role := Role.user, content := "read a.txt" } : Message) ∈
        remove_old_tool_results 1 example_history ∧
      ({ role := Role.user, content := "read a.txt" } : Message) ∈
        crop_middle_messages 1 example_history ∧
      ({ role := Role.user, content := "read a.txt" } : Message) ∈
        compress_context 1 1 0 example_history) := by
  have h := compression_preserves_anchors 1 1 0 example_history
  exact ⟨h.1 { role := Role.system, content := "You are Hakken." } (by decide) (by decide),
    h.2 { role := Role.user, content := "read a.txt" } (by decide)⟩

/-- Claim C8: when the estimated token usage is at or below the compression
threshold (the `token_count > max_tokens * 0.8` trigger of `add_message`),
`compress_if_needed` leaves the store unchanged; hence compressing twice
equals compressing once as soon as the compressed store is below threshold. -/
theorem compress_if_needed_idempotent (h : HistoryStore) :
    (5 * estimate_tokens h.messages ≤ 4 * h.max_tokens → compress_if_needed h = h) ∧
    (5 * estimate_tokens (compress_if_needed h).messages ≤
        4 * (compress_if_needed h).max_tokens →
      compress_if_needed (compress_if_needed h) = compress_if_needed h) := by
  have noop : ∀ g : HistoryStore,
      5 * estimate_tokens g.messages ≤ 4 * g.max_tokens → compress_if_needed g = g := by
    intro g hg
    unfold compress_if_needed
    rw [if_neg]
    simp only [over_threshold, decide_eq_true_eq]
    omega
  exact ⟨noop h, noop (compress_if_needed h)⟩

/-- Witness for C8: a store below threshold is untouched, and a second
compression of any compressed-and-below-threshold store is a no-op. -/
theorem compress_if_needed_idempotent_witness :
    compress_if_needed example_store = example_store ∧
    compress_if_needed (compress_if_needed example_store) =
      compress_if_needed example_store := by
  have h := compress_if_needed_idempotent example_store
  refine ⟨h.1 (by decide), h.2 ?_⟩
  rw [h.1 (by decide)]
  decide

/-- Witness for C1: on the spec's scenario the sealed call at index 0 has
arguments equal to the reassembled fragment concatenation, dispatched through
`stream_reassembly` with its hypothesis discharged by evaluation. -/
theorem stream_reassembly_witness :
    ({ name := some "list_dir", argumentsText := "\x7b\x22path\x22:\x22.\x22\x7d" } :
        ToolCallBuild).argumentsText = concat_all (arg_fragments 0 example_stream) :=
  stream_reassembly example_stream 0
    { name := some "list_dir", argumentsText := "\x7b\x22path\x22:\x22.\x22\x7d" }
    (by decide)

/-! ## Frame extraction lemmas (C5) -/

end Hakken
